import Mathlib

/-!
Verification of the API key rotation and failover manager (`APIKeyManager`)
of the Quiz repository: credential pool construction, least-recently-used
selection with cooldown fallback (`getBestKey`), failure reporting
(`reportFailure`) and the bounded retry loop (`execute`).

Timestamps are modelled as natural numbers (milliseconds), the JS error
values thrown by the operation as a record of a message string and an
optional numeric status.
-/

namespace Quiz

/-- State kept for one API key, mirroring the `KeyState` interface. -/
structure KeyState where
  key : String
  lastUsed : Nat
  usageCount : Nat
  cooldownUntil : Nat
deriving Repr, DecidableEq

abbrev Pool := List KeyState

/-- `COOLDOWN_DURATION = 60 * 1000` (60 seconds, in milliseconds). -/
def COOLDOWN_DURATION : Nat := 60 * 1000

/-! ### Character-list string utilities

The JS code uses `String.prototype.includes`, `split(',')` and `trim`.
These are modelled over the character list of a `String` so that they
evaluate by kernel reduction. -/

/-- `leadsWith pat s` : `pat` is an initial segment of `s`. -/
def leadsWith : List Char → List Char → Bool
  | [], _ => true
  | _ :: _, [] => false
  | a :: as, b :: bs => a == b && leadsWith as bs

/-- `occursIn pat s` : `pat` occurs contiguously inside `s`. -/
def occursIn (pat : List Char) : List Char → Bool
  | [] => leadsWith pat []
  | c :: rest => leadsWith pat (c :: rest) || occursIn pat rest

/-- Model of JS `s.includes(pat)`. -/
def strIncludes (s pat : String) : Bool :=
  occursIn pat.data s.data

/-- Whitespace as trimmed by JS `trim` (ASCII cases used here). -/
def isSpaceChar (c : Char) : Bool :=
  c == ' ' || c == '\t' || c == '\n' || c == '\r'

def dropLeadingSpaces : List Char → List Char
  | [] => []
  | c :: cs => if isSpaceChar c then dropLeadingSpaces cs else c :: cs

/-- Model of JS `trim`: drop whitespace at both ends. -/
def trimCL (l : List Char) : List Char :=
  (dropLeadingSpaces (dropLeadingSpaces l.reverse).reverse)

/-- Model of JS `split(',')`: split into comma-separated chunks
(`splitCommaCL [] = [[]]`, like `"".split(',') = [""]`). -/
def splitCommaCL : List Char → List (List Char)
  | [] => [[]]
  | c :: cs =>
    let r := splitCommaCL cs
    if c == ',' then [] :: r
    else
      match r with
      | [] => [[c]]
      | h :: t => (c :: h) :: t

/-- The constructor's key parsing:
`keysString.split(',').map(k => k.trim()).filter(k => k.length > 0)`. -/
def parseKeys (keysString : String) : List String :=
  ((splitCommaCL keysString.data).map (fun l => String.mk (trimCL l))).filter
    (fun k => k.length > 0)

/-- The constructor's pool: each parsed key with
`lastUsed = 0, usageCount = 0, cooldownUntil = 0`. -/
def initPool (keysString : String) : Pool :=
  (parseKeys keysString).map (fun key =>
    { key := key, lastUsed := 0, usageCount := 0, cooldownUntil := 0 })

/-! ### Error model and retry classification

`execute` inspects `error.message` (substring tests) and `error.status`
(a numeric field that may be absent; `undefined >= 500` is false in JS,
modelled by `Option Int`). -/

/-- An error thrown by the operation: a message and an optional status. -/
structure GenError where
  message : String
  status : Option Int
deriving Repr, DecidableEq

/-- `error.message?.includes("429") || error.message?.includes("Quota") ||
error.status === 429`. -/
def isRateLimit (e : GenError) : Bool :=
  strIncludes e.message "429" || strIncludes e.message "Quota" ||
    (match e.status with
     | some s => s == 429
     | none => false)

/-- `error.message?.includes("500") || error.message?.includes("503") ||
error.status >= 500`. -/
def isServerError (e : GenError) : Bool :=
  strIncludes e.message "500" || strIncludes e.message "503" ||
    (match e.status with
     | some s => decide (500 ≤ s)
     | none => false)

/-! ### Credential selection (`getBestKey`) -/

/-- Ordering of key records by a numeric field, as used by the two
`sort` comparators of `getBestKey`. -/
def measLe (f : KeyState → Nat) : KeyState → KeyState → Prop :=
  fun a b => f a ≤ f b

instance (f : KeyState → Nat) : DecidableRel (measLe f) := fun a b =>
  inferInstanceAs (Decidable (f a ≤ f b))

instance (f : KeyState → Nat) : IsTotal KeyState (measLe f) :=
  ⟨fun a b => Nat.le_total (f a) (f b)⟩

instance (f : KeyState → Nat) : IsTrans KeyState (measLe f) :=
  ⟨fun _ _ _ h h' => Nat.le_trans h h'⟩

/-- Comparison used for `activeKeys.sort((a, b) => a.lastUsed - b.lastUsed)`. -/
abbrev lastUsedLe : KeyState → KeyState → Prop := measLe KeyState.lastUsed

/-- Comparison used for
`this.keys.sort((a, b) => a.cooldownUntil - b.cooldownUntil)`. -/
abbrev cooldownLe : KeyState → KeyState → Prop := measLe KeyState.cooldownUntil

/-- `this.keys.filter(k => now >= k.cooldownUntil)`. -/
def activeKeys (pool : Pool) (now : Nat) : Pool :=
  pool.filter (fun k => decide (k.cooldownUntil ≤ now))

/-- Replace the first element equal to `target` by `f target`, modelling
the in-place mutation of the selected record (a shared object reference). -/
def updateFirst (pool : Pool) (target : KeyState) (f : KeyState → KeyState) : Pool :=
  match pool with
  | [] => []
  | h :: t => if h = target then f h :: t else h :: updateFirst t target f

/-- `getBestKey()`: returns the selected key (or `null`) together with the
resulting pool state.

* active keys exist: stably sort a copy of the active list by `lastUsed`,
  take its head, set `lastUsed = now` and bump `usageCount` on that record
  (mutation through the shared reference), keys order unchanged;
* no active key: sort `this.keys` *in place* by `cooldownUntil` and return
  the first key (`[0]?.key || null`, so an empty string also yields `null`). -/
def getBestKey (pool : Pool) (now : Nat) : Option String × Pool :=
  let active := activeKeys pool now
  if active.isEmpty then
    let sorted := List.insertionSort cooldownLe pool
    match sorted.head? with
    | none => (none, sorted)
    | some k => (if k.key = "" then none else some k.key, sorted)
  else
    match (List.insertionSort lastUsedLe active).head? with
    | none => (none, pool)
    | some sel =>
      (some sel.key,
        updateFirst pool sel
          (fun k => { k with lastUsed := now, usageCount := k.usageCount + 1 }))

/-- `reportFailure(keyString)`: set `cooldownUntil = now + COOLDOWN_DURATION`
on the first record whose key matches (`Array.prototype.find`); no-op when
none matches. -/
def reportFailure : Pool → String → Nat → Pool
  | [], _, _ => []
  | h :: t, ks, now =>
    if h.key = ks then { h with cooldownUntil := now + COOLDOWN_DURATION } :: t
    else h :: reportFailure t ks now

/-! ### The retry loop (`execute`) -/

/-- Outcome of `execute`: a returned value, a thrown last error, the thrown
`"No API keys configured."` error, or the generic exhaustion error
(`lastError` still null after the loop). -/
inductive ExecOutcome (α : Type) where
  | success (v : α)
  | failure (e : GenError)
  | noKeys
  | exhausted
deriving Repr, DecidableEq

/-- The `while (attempts < maxAttempts)` loop of `execute`.

`fuel` is the remaining attempt budget (`maxAttempts - attempts`), `i` the
number of failures so far (used to index the per-attempt clock `times` and
the operation's behaviour), `lastError` the last caught error.  Returns the
outcome, the final pool and the number of invocations of `operation`. -/
def executeLoop (op : Nat → String → Except GenError α) (times : Nat → Nat) :
    Nat → Nat → Option GenError → Pool → ExecOutcome α × Pool × Nat
  | 0, _, lastError, pool =>
    (match lastError with
     | some e => ExecOutcome.failure e
     | none => ExecOutcome.exhausted, pool, 0)
  | fuel + 1, i, _, pool =>
    match getBestKey pool (times i) with
    | (none, pool₁) => (ExecOutcome.noKeys, pool₁, 0)
    | (some key, pool₁) =>
      if key = "" then (ExecOutcome.noKeys, pool₁, 0)
      else
        match op i key with
        | Except.ok v => (ExecOutcome.success v, pool₁, 1)
        | Except.error e =>
          let pool₂ :=
            if isRateLimit e || isServerError e then
              reportFailure pool₁ key (times i)
            else pool₁
          let r := executeLoop op times fuel (i + 1) (some e) pool₂
          (r.1, r.2.1, r.2.2 + 1)

/-- `execute(operation)`: run the retry loop with budget
`maxAttempts = keys.length > 0 ? keys.length : 1`. -/
def execute (op : Nat → String → Except GenError α) (times : Nat → Nat)
    (pool : Pool) : ExecOutcome α × Pool × Nat :=
  let maxAttempts := if pool.length > 0 then pool.length else 1
  executeLoop op times maxAttempts 0 none pool

/-! ### Definitions used to state the claims -/

/-- First element of the pool minimising `f` (on ties the earlier element
is kept). -/
def firstMinBy (f : KeyState → Nat) : Pool → Option KeyState
  | [] => none
  | a :: t =>
    match firstMinBy f t with
    | none => some a
    | some m => if f a ≤ f m then some a else some m

/-- Remove the first element equal to `x`. -/
def eraseFirst : Pool → KeyState → Pool
  | [], _ => []
  | h :: t, x => if h = x then t else h :: eraseFirst t x

/-- The spec's selection rule, following its words: "choose the credential
in `active` with the smallest `lastUsedAt` ... ties broken by pool order":
the first element of the list whose `lastUsed` is minimal. -/
def specSelect (l : Pool) : Option KeyState :=
  l.find? (fun k => decide (∀ j ∈ l, k.lastUsed ≤ j.lastUsed))

/-- The claim's classification, following its words: the error "signals
rate-limiting/quota (HTTP 429 or a quota indicator) or a server-side error
in the HTTP 500–599 range". -/
def specRetryable (e : GenError) : Bool :=
  strIncludes e.message "429" || strIncludes e.message "Quota" ||
    (match e.status with
     | some s => s == 429
     | none => false) ||
  strIncludes e.message "500" || strIncludes e.message "503" ||
    (match e.status with
     | some s => decide (500 ≤ s ∧ s ≤ 599)
     | none => false)

/-- The classification the code implements: as `specRetryable`, but with no
upper bound on the server-error status test (`status >= 500`). -/
def specRetryableAmended (e : GenError) : Bool :=
  strIncludes e.message "429" || strIncludes e.message "Quota" ||
    (match e.status with
     | some s => s == 429
     | none => false) ||
  strIncludes e.message "500" || strIncludes e.message "503" ||
    (match e.status with
     | some s => decide (500 ≤ s)
     | none => false)

/-- One observable state-changing operation of the gate. -/
inductive GateOp where
  | select (now : Nat)
  | report (key : String) (now : Nat)
deriving Repr, DecidableEq

/-- The clock value observed by an operation. -/
def opTime : GateOp → Nat
  | GateOp.select now => now
  | GateOp.report _ now => now

/-- The pool after one gate operation. -/
def applyOp (pool : Pool) : GateOp → Pool
  | GateOp.select now => (getBestKey pool now).2
  | GateOp.report key now => reportFailure pool key now

/-- The pool after a sequence of gate operations. -/
def runOps (pool : Pool) (ops : List GateOp) : Pool := ops.foldl applyOp pool

/-- The `cooldownUntil` of the (first) record holding the given key. -/
def cooldownOfKey (pool : Pool) (key : String) : Option Nat :=
  (pool.find? (fun k => decide (k.key = key))).map KeyState.cooldownUntil

/-- Iterated selection: run `getBestKey` once per clock value, collecting
the selected keys. -/
def runSelections (pool : Pool) : List Nat → List (Option String) × Pool
  | [] => ([], pool)
  | t :: ts =>
    let r := getBestKey pool t
    let rest := runSelections r.2 ts
    (r.1 :: rest.1, rest.2)

/-! ### Lemmas on first minima and the stable insertion sort -/

theorem firstMinBy_eq_none_iff (f : KeyState → Nat) (l : Pool) :
    firstMinBy f l = none ↔ l = [] := by
  cases l with
  | nil => simp [firstMinBy]
  | cons a t =>
    simp only [firstMinBy]
    cases h : firstMinBy f t with
    | none => simp
    | some m => by_cases hf : f a ≤ f m <;> simp [hf]

theorem firstMinBy_isSome (f : KeyState → Nat) {l : Pool} (h : l ≠ []) :
    ∃ m, firstMinBy f l = some m := by
  cases hm : firstMinBy f l with
  | none => exact absurd ((firstMinBy_eq_none_iff f l).mp hm) h
  | some m => exact ⟨m, rfl⟩

theorem firstMinBy_mem (f : KeyState → Nat) :
    ∀ {l : Pool} {m : KeyState}, firstMinBy f l = some m → m ∈ l := by
  intro l
  induction l with
  | nil => intro m h; simp [firstMinBy] at h
  | cons a t ih =>
    intro m h
    simp only [firstMinBy] at h
    cases ht : firstMinBy f t with
    | none =>
      rw [ht] at h
      simp only [Option.some.injEq] at h
      simp [← h]
    | some mt =>
      rw [ht] at h
      by_cases hf : f a ≤ f mt
      · simp only [if_pos hf, Option.some.injEq] at h
        simp [← h]
      · simp only [if_neg hf, Option.some.injEq] at h
        exact List.mem_cons_of_mem a (ih (h ▸ ht))

theorem firstMinBy_le (f : KeyState → Nat) :
    ∀ {l : Pool} {m : KeyState}, firstMinBy f l = some m →
      ∀ j ∈ l, f m ≤ f j := by
  intro l
  induction l with
  | nil => intro m h; simp [firstMinBy] at h
  | cons a t ih =>
    intro m h j hj
    simp only [firstMinBy] at h
    cases ht : firstMinBy f t with
    | none =>
      rw [ht] at h
      simp only [Option.some.injEq] at h
      have htnil : t = [] := (firstMinBy_eq_none_iff f t).mp ht
      subst htnil
      simp at hj
      simp [← h, hj]
    | some mt =>
      rw [ht] at h
      rcases List.mem_cons.mp hj with hja | hjt
      · by_cases hf : f a ≤ f mt
        · simp only [if_pos hf, Option.some.injEq] at h
          simp [← h, hja]
        · simp only [if_neg hf, Option.some.injEq] at h
          have := Nat.le_of_not_le hf
          subst hja
          exact h ▸ Nat.le_of_lt (Nat.lt_of_not_le hf)
      · by_cases hf : f a ≤ f mt
        · simp only [if_pos hf, Option.some.injEq] at h
          exact Nat.le_trans (h ▸ hf) (ih ht j hjt)
        · simp only [if_neg hf, Option.some.injEq] at h
          exact ih (h ▸ ht) j hjt

/-- Stable sort peeling: a stable insertion sort puts the first minimum at
the head, followed by the stable sort of the list with that occurrence
removed. -/
theorem insertionSort_eq_cons_eraseFirst (f : KeyState → Nat) :
    ∀ {l : Pool} {m : KeyState}, firstMinBy f l = some m →
      List.insertionSort (measLe f) l =
        m :: List.insertionSort (measLe f) (eraseFirst l m) := by
  intro l
  induction l with
  | nil => intro m h; simp [firstMinBy] at h
  | cons a t ih =>
    intro m h
    simp only [firstMinBy] at h
    cases ht : firstMinBy f t with
    | none =>
      rw [ht] at h
      simp only [Option.some.injEq] at h
      have htnil : t = [] := (firstMinBy_eq_none_iff f t).mp ht
      subst htnil
      subst h
      simp [List.insertionSort, List.orderedInsert, eraseFirst]
    | some mt =>
      rw [ht] at h
      by_cases hf : f a ≤ f mt
      · simp only [if_pos hf, Option.some.injEq] at h
        subst h
        simp only [List.insertionSort, eraseFirst, if_pos rfl]
        rw [ih ht]
        simp [List.orderedInsert, show measLe f a mt from hf]
        exact (ih ht).symm
      · simp only [if_neg hf, Option.some.injEq] at h
        subst h
        have hlt : f mt < f a := Nat.lt_of_not_le hf
        have hne : a ≠ mt := by
          intro heq
          rw [heq] at hlt
          exact Nat.lt_irrefl _ hlt
        simp only [List.insertionSort, eraseFirst, if_neg hne]
        rw [ih ht]
        have hnr : ¬ measLe f a mt := hf
        simp [List.orderedInsert, List.insertionSort, hnr]

/-- Head of the stable sort: the first minimum. -/
theorem head_insertionSort (f : KeyState → Nat) {l : Pool} {m : KeyState}
    (h : firstMinBy f l = some m) :
    (List.insertionSort (measLe f) l).head? = some m := by
  rw [insertionSort_eq_cons_eraseFirst f h]
  rfl

theorem find?_congr_mem {p q : KeyState → Bool} :
    ∀ {l : Pool}, (∀ a ∈ l, p a = q a) → l.find? p = l.find? q := by
  intro l
  induction l with
  | nil => intro _; rfl
  | cons a t ih =>
    intro h
    have ha := h a (List.mem_cons_self a t)
    cases hq : q a with
    | true =>
      rw [List.find?_cons_of_pos t (ha.trans hq), List.find?_cons_of_pos t hq]
    | false =>
      rw [List.find?_cons_of_neg t (by simp [ha, hq]),
        List.find?_cons_of_neg t (by simp [hq])]
      exact ih (fun b hb => h b (List.mem_cons_of_mem a hb))

/-- The code's tie-first minimum coincides with the spec's "smallest
`lastUsedAt`, ties broken by pool order". -/
theorem firstMinBy_eq_specSelect :
    ∀ l : Pool, firstMinBy KeyState.lastUsed l = specSelect l := by
  intro l
  induction l with
  | nil => rfl
  | cons a t ih =>
    simp only [firstMinBy]
    cases ht : firstMinBy KeyState.lastUsed t with
    | none =>
      have htnil : t = [] := (firstMinBy_eq_none_iff KeyState.lastUsed t).mp ht
      subst htnil
      simp [specSelect, List.find?]
    | some mt =>
      have hmem := firstMinBy_mem KeyState.lastUsed ht
      have hle := firstMinBy_le KeyState.lastUsed ht
      change (if a.lastUsed ≤ mt.lastUsed then some a else some mt)
        = specSelect (a :: t)
      by_cases hf : a.lastUsed ≤ mt.lastUsed
      · rw [if_pos hf]
        have hpa : (fun k => decide (∀ j ∈ a :: t, k.lastUsed ≤ j.lastUsed)) a
            = true := by
          simp only [decide_eq_true_eq]
          intro j hj
          rcases List.mem_cons.mp hj with hj | hj
          · rw [hj]
          · exact Nat.le_trans hf (hle j hj)
        rw [specSelect, List.find?_cons_of_pos t hpa]
      · rw [if_neg hf]
        have hpa : ¬ ((fun k => decide (∀ j ∈ a :: t, k.lastUsed ≤ j.lastUsed)) a
            = true) := by
          simp only [decide_eq_true_eq]
          intro hall
          exact hf (hall mt (List.mem_cons_of_mem a hmem))
        rw [specSelect, List.find?_cons_of_neg t hpa]
        rw [ih] at ht
        rw [← ht, specSelect]
        apply find?_congr_mem
        intro b hb
        have : (∀ j ∈ a :: t, b.lastUsed ≤ j.lastUsed) ↔
            (∀ j ∈ t, b.lastUsed ≤ j.lastUsed) := by
          constructor
          · intro hall j hj
            exact hall j (List.mem_cons_of_mem a hj)
          · intro hall j hj
            rcases List.mem_cons.mp hj with hj | hj
            · rw [hj]
              exact Nat.le_trans (hall mt hmem) (Nat.le_of_lt (Nat.lt_of_not_le hf))
            · exact hall j hj
        exact decide_eq_decide.mpr this.symm

/-! ### Characterisation of `getBestKey` -/

theorem getBestKey_of_active {pool : Pool} {now : Nat} {m : KeyState}
    (hm : firstMinBy KeyState.lastUsed (activeKeys pool now) = some m) :
    getBestKey pool now =
      (some m.key,
        updateFirst pool m
          (fun k => { k with lastUsed := now, usageCount := k.usageCount + 1 })) := by
  have hne : activeKeys pool now ≠ [] := by
    intro h0
    rw [h0] at hm
    simp [firstMinBy] at hm
  have hemp : (activeKeys pool now).isEmpty = false := by
    cases hh : activeKeys pool now with
    | nil => exact absurd hh hne
    | cons x xs => rfl
  have hhead : (List.insertionSort lastUsedLe (activeKeys pool now)).head?
      = some m := head_insertionSort KeyState.lastUsed hm
  unfold getBestKey
  simp only [hemp, Bool.false_eq_true, if_false, hhead]

theorem getBestKey_of_fallback {pool : Pool} {now : Nat}
    (h : activeKeys pool now = []) :
    getBestKey pool now =
      (match (List.insertionSort cooldownLe pool).head? with
       | none => none
       | some k => if k.key = "" then none else some k.key,
        List.insertionSort cooldownLe pool) := by
  unfold getBestKey
  simp only [h, List.isEmpty_nil, if_true]
  cases hh : (List.insertionSort cooldownLe pool).head? with
  | none => simp only [hh]
  | some k => simp only [hh]

/-! ### Preservation lemmas for `updateFirst`, `eraseFirst` and `filter` -/

/-- Any projection unchanged by the update is unchanged on the pool. -/
theorem map_updateFirst {β : Type} (π : KeyState → β) (g : KeyState → KeyState)
    (hg : ∀ k, π (g k) = π k) :
    ∀ (l : Pool) (target : KeyState),
      (updateFirst l target g).map π = l.map π := by
  intro l target
  induction l with
  | nil => rfl
  | cons h t ih =>
    simp only [updateFirst]
    by_cases hh : h = target
    · simp [if_pos hh, hg]
    · simp [if_neg hh, ih]

theorem mem_updateFirst {g : KeyState → KeyState} :
    ∀ {l : Pool} {target k : KeyState},
      k ∈ updateFirst l target g → k ∈ l ∨ k = g target := by
  intro l
  induction l with
  | nil => intro target k hk; simp [updateFirst] at hk
  | cons h t ih =>
    intro target k hk
    simp only [updateFirst] at hk
    by_cases hh : h = target
    · rw [if_pos hh] at hk
      rcases List.mem_cons.mp hk with hk | hk
      · right; rw [hk, hh]
      · left; exact List.mem_cons_of_mem h hk
    · rw [if_neg hh] at hk
      rcases List.mem_cons.mp hk with hk | hk
      · left; simp [hk]
      · rcases ih hk with hk | hk
        · left; exact List.mem_cons_of_mem h hk
        · right; exact hk

/-- Updating the first occurrence of a record the filter keeps, into one it
drops, removes exactly that occurrence from the filtered list. -/
theorem filter_updateFirst {p : KeyState → Bool} {g : KeyState → KeyState}
    {target : KeyState} (hp : p target = true) (hpg : p (g target) = false) :
    ∀ l : Pool,
      (updateFirst l target g).filter p = eraseFirst (l.filter p) target := by
  intro l
  induction l with
  | nil => rfl
  | cons h t ih =>
    simp only [updateFirst]
    by_cases hh : h = target
    · subst hh
      rw [if_pos rfl, List.filter_cons_of_pos hp,
        List.filter_cons_of_neg (by rw [hpg]; simp)]
      simp [eraseFirst]
    · rw [if_neg hh]
      cases hph : p h with
      | true =>
        rw [List.filter_cons_of_pos hph, List.filter_cons_of_pos hph]
        simp only [eraseFirst, if_neg hh]
        rw [ih]
      | false =>
        rw [List.filter_cons_of_neg (by rw [hph]; simp),
          List.filter_cons_of_neg (by rw [hph]; simp)]
        exact ih

/-- If every record dropped by the filter is strictly larger than every
record kept, the first minimum is found inside the filtered list. -/
theorem firstMinBy_filter (f : KeyState → Nat) {p : KeyState → Bool} :
    ∀ {l : Pool},
      (∀ k ∈ l, p k = false → ∀ j ∈ l, p j = true → f j < f k) →
      l.filter p ≠ [] →
      firstMinBy f l = firstMinBy f (l.filter p) := by
  intro l
  induction l with
  | nil => intro _ hne; simp at hne
  | cons a t ih =>
    intro hsep hne
    cases hpa : p a with
    | true =>
      rw [List.filter_cons_of_pos hpa]
      cases hft : t.filter p with
      | nil =>
        have hallf : ∀ k ∈ t, p k = false := by
          intro k hk
          cases hpk : p k with
          | false => rfl
          | true =>
            have : k ∈ t.filter p := List.mem_filter.mpr ⟨hk, hpk⟩
            rw [hft] at this
            simp at this
        have hLHS : firstMinBy f (a :: t) = some a := by
          simp only [firstMinBy]
          cases hmt : firstMinBy f t with
          | none => rfl
          | some mt =>
            have hmem := firstMinBy_mem f hmt
            have : f a < f mt :=
              hsep mt (List.mem_cons_of_mem a hmem) (hallf mt hmem) a
                (List.mem_cons_self a t) hpa
            change (if f a ≤ f mt then some a else some mt) = some a
            rw [if_pos (Nat.le_of_lt this)]
        rw [hLHS]
        rfl
      | cons b bs =>
        have hfne : t.filter p ≠ [] := by rw [hft]; simp
        have hih := ih (fun k hk hfk j hj hpj =>
          hsep k (List.mem_cons_of_mem a hk) hfk j (List.mem_cons_of_mem a hj) hpj) hfne
        obtain ⟨m, hm⟩ := firstMinBy_isSome f hfne
        have h1 : firstMinBy f t = some m := by rw [hih, hm]
        rw [← hft]
        simp only [firstMinBy, h1, hm]
    | false =>
      rw [List.filter_cons_of_neg (by rw [hpa]; simp)]
      have hfne : t.filter p ≠ [] := by
        intro h0
        rw [List.filter_cons_of_neg (by rw [hpa]; simp)] at hne
        exact hne h0
      have hih := ih (fun k hk hfk j hj hpj =>
        hsep k (List.mem_cons_of_mem a hk) hfk j (List.mem_cons_of_mem a hj) hpj) hfne
      obtain ⟨m, hm⟩ := firstMinBy_isSome f hfne
      have h1 : firstMinBy f t = some m := by rw [hih, hm]
      have hmemf : m ∈ t.filter p := firstMinBy_mem f hm
      have hmt : m ∈ t := (List.mem_filter.mp hmemf).1
      have hpm : p m = true := (List.mem_filter.mp hmemf).2
      have hlt : f m < f a :=
        hsep a (List.mem_cons_self a t) hpa m (List.mem_cons_of_mem a hmt) hpm
      simp only [firstMinBy, h1]
      change (if f a ≤ f m then some a else some m) = firstMinBy f (t.filter p)
      rw [if_neg (Nat.not_le_of_lt hlt), hm]

/-- Filtering on a condition satisfied everywhere keeps the pool. -/
theorem activeKeys_eq_self {pool : Pool} {now : Nat}
    (h : ∀ k ∈ pool, k.cooldownUntil ≤ now) : activeKeys pool now = pool :=
  List.filter_eq_self.mpr (fun a ha => by simpa using h a ha)

theorem length_eraseFirst :
    ∀ {l : Pool} {x : KeyState}, x ∈ l →
      (eraseFirst l x).length + 1 = l.length := by
  intro l
  induction l with
  | nil => intro x hx; simp at hx
  | cons h t ih =>
    intro x hx
    simp only [eraseFirst]
    by_cases hh : h = x
    · rw [if_pos hh]
      rfl
    · rw [if_neg hh]
      have hxt : x ∈ t := by
        rcases List.mem_cons.mp hx with hx | hx
        · exact absurd hx.symm hh
        · exact hx
      simp only [List.length_cons, ih hxt]

/-! ### Round-robin selection -/

/-- With a threshold `θ` separating "fresh" records (`lastUsed < θ`) from
already-reselected ones, every call time at least `θ`, and every record
active at every call time, the sequence of selections enumerates the fresh
records in stable `lastUsed` order. -/
theorem runSelections_roundRobin (θ : Nat) :
    ∀ (times : List Nat) (pool : Pool),
      (∀ t ∈ times, θ ≤ t) →
      (∀ k ∈ pool, ∀ t ∈ times, k.cooldownUntil ≤ t) →
      times.length = (pool.filter (fun k => decide (k.lastUsed < θ))).length →
      (runSelections pool times).1 =
        (List.insertionSort lastUsedLe
          (pool.filter (fun k => decide (k.lastUsed < θ)))).map
          (fun k => some k.key) := by
  intro times
  induction times with
  | nil =>
    intro pool _ _ hlen
    have : pool.filter (fun k => decide (k.lastUsed < θ)) = [] :=
      List.length_eq_zero.mp hlen.symm
    rw [this]
    rfl
  | cons t ts ih =>
    intro pool hθ hc hlen
    have hθt : θ ≤ t := hθ t (List.mem_cons_self t ts)
    have hfne : pool.filter (fun k => decide (k.lastUsed < θ)) ≠ [] := by
      intro h0
      rw [h0] at hlen
      simp at hlen
    obtain ⟨m, hm⟩ := firstMinBy_isSome KeyState.lastUsed hfne
    have hsep : ∀ k ∈ pool, (fun k => decide (k.lastUsed < θ)) k = false →
        ∀ j ∈ pool, (fun k => decide (k.lastUsed < θ)) j = true →
          j.lastUsed < k.lastUsed := by
      intro k _ hfk j _ hpj
      simp only [decide_eq_true_eq] at hpj
      simp only [decide_eq_false_iff_not, Nat.not_lt] at hfk
      exact Nat.lt_of_lt_of_le hpj hfk
    have hpoolmin : firstMinBy KeyState.lastUsed pool = some m := by
      rw [firstMinBy_filter KeyState.lastUsed hsep hfne, hm]
    have hact : activeKeys pool t = pool :=
      activeKeys_eq_self (fun k hk => hc k hk t (List.mem_cons_self t ts))
    have hg : getBestKey pool t =
        (some m.key,
          updateFirst pool m
            (fun k => { k with lastUsed := t, usageCount := k.usageCount + 1 })) := by
      apply getBestKey_of_active
      rw [hact]
      exact hpoolmin
    have hmf : m ∈ pool.filter (fun k => decide (k.lastUsed < θ)) :=
      firstMinBy_mem KeyState.lastUsed hm
    have hpm : (fun k => decide (k.lastUsed < θ)) m = true :=
      (List.mem_filter.mp hmf).2
    have hmp : m ∈ pool := (List.mem_filter.mp hmf).1
    have hpgm : (fun k => decide (k.lastUsed < θ))
        ({ m with lastUsed := t, usageCount := m.usageCount + 1 }) = false := by
      simp only [decide_eq_false_iff_not, Nat.not_lt]
      exact hθt
    have hfilter :
        (updateFirst pool m
            (fun k => { k with lastUsed := t, usageCount := k.usageCount + 1 })).filter
            (fun k => decide (k.lastUsed < θ)) =
          eraseFirst (pool.filter (fun k => decide (k.lastUsed < θ))) m :=
      filter_updateFirst hpm hpgm _
    have hih := ih (updateFirst pool m
        (fun k => { k with lastUsed := t, usageCount := k.usageCount + 1 }))
      (fun t' ht' => hθ t' (List.mem_cons_of_mem t ht'))
      (by
        intro k hk t' ht'
        rcases mem_updateFirst hk with hk | hk
        · exact hc k hk t' (List.mem_cons_of_mem t ht')
        · rw [hk]
          exact hc m hmp t' (List.mem_cons_of_mem t ht'))
      (by
        rw [hfilter]
        have h1 := length_eraseFirst hmf
        rw [List.length_cons] at hlen
        exact Nat.add_right_cancel (hlen.trans h1.symm))
    simp only [runSelections, hg]
    rw [hih, hfilter, insertionSort_eq_cons_eraseFirst KeyState.lastUsed hm]
    rfl

/-! ### The retry loop: basic shape lemmas -/

theorem executeLoop_succ_of_ok {α : Type} {op : Nat → String → Except GenError α}
    {times : Nat → Nat} {pool pool₁ : Pool} {key : String} {v : α}
    (hg : getBestKey pool (times i) = (some key, pool₁)) (hk : key ≠ "")
    (hop : op i key = Except.ok v) :
    ∀ fuel le, executeLoop op times (fuel + 1) i le pool =
      (ExecOutcome.success v, pool₁, 1) := by
  intro fuel le
  simp only [executeLoop, hg, if_neg hk, hop]

/-- A successful attempt returns immediately: `execute` performs exactly one
selection and one invocation. -/
theorem execute_success_step {α : Type} {op : Nat → String → Except GenError α}
    {times : Nat → Nat} {pool pool₁ : Pool} {key : String} {v : α}
    (hg : getBestKey pool (times 0) = (some key, pool₁)) (hk : key ≠ "")
    (hop : op 0 key = Except.ok v) :
    execute op times pool = (ExecOutcome.success v, pool₁, 1) := by
  unfold execute
  have : ∃ f, (if pool.length > 0 then pool.length else 1) = f + 1 := by
    by_cases hp : pool.length > 0
    · refine ⟨pool.length - 1, ?_⟩
      rw [if_pos hp]
      omega
    · exact ⟨0, by simp [hp]⟩
  obtain ⟨f, hf⟩ := this
  rw [hf]
  exact executeLoop_succ_of_ok hg hk hop f none

/-! ### Pool well-formedness through the loop -/

/-- A pool as produced by the constructor: non-empty, and every key a
non-empty string. -/
def goodPool (pool : Pool) : Prop :=
  pool ≠ [] ∧ ∀ k ∈ pool, k.key ≠ ""

instance (pool : Pool) : Decidable (goodPool pool) :=
  inferInstanceAs (Decidable (pool ≠ [] ∧ ∀ k ∈ pool, k.key ≠ ""))

theorem goodPool_of_keys_perm {pool pool' : Pool}
    (h : (pool'.map KeyState.key).Perm (pool.map KeyState.key))
    (hg : goodPool pool) : goodPool pool' := by
  constructor
  · intro h0
    rw [h0] at h
    have := h.symm.eq_nil
    rw [List.map_eq_nil_iff] at this
    exact hg.1 this
  · intro k hk
    have : k.key ∈ pool'.map KeyState.key := List.mem_map_of_mem KeyState.key hk
    have : k.key ∈ pool.map KeyState.key := h.mem_iff.mp this
    obtain ⟨j, hj, hjk⟩ := List.mem_map.mp this
    rw [← hjk]
    exact hg.2 j hj

theorem getBestKey_keys_perm (pool : Pool) (now : Nat) :
    (((getBestKey pool now).2).map KeyState.key).Perm (pool.map KeyState.key) := by
  by_cases h : activeKeys pool now = []
  · rw [getBestKey_of_fallback h]
    exact (List.perm_insertionSort cooldownLe pool).map KeyState.key
  · obtain ⟨m, hm⟩ := firstMinBy_isSome KeyState.lastUsed h
    rw [getBestKey_of_active hm]
    have : (updateFirst pool m
        (fun k => { k with lastUsed := now, usageCount := k.usageCount + 1 })).map
          KeyState.key = pool.map KeyState.key :=
      map_updateFirst KeyState.key
        (fun k => { k with lastUsed := now, usageCount := k.usageCount + 1 })
        (fun _ => rfl) pool m
    rw [this]

theorem map_key_reportFailure :
    ∀ (pool : Pool) (ks : String) (now : Nat),
      (reportFailure pool ks now).map KeyState.key = pool.map KeyState.key := by
  intro pool ks now
  induction pool with
  | nil => rfl
  | cons h t ih =>
    simp only [reportFailure]
    by_cases hh : h.key = ks
    · rw [if_pos hh]
      rfl
    · rw [if_neg hh]
      simp only [List.map_cons, ih]

/-- When the pool is well-formed, `getBestKey` returns a key, that key is a
non-empty string, and the resulting pool is again well-formed. -/
theorem getBestKey_some {pool : Pool} (now : Nat) (hg : goodPool pool) :
    ∃ key pool₁, getBestKey pool now = (some key, pool₁) ∧ key ≠ "" ∧
      goodPool pool₁ := by
  have hperm := getBestKey_keys_perm pool now
  have hg₁ : goodPool (getBestKey pool now).2 := goodPool_of_keys_perm hperm hg
  by_cases h : activeKeys pool now = []
  · have hsne : List.insertionSort cooldownLe pool ≠ [] := by
      intro h0
      have := (List.perm_insertionSort cooldownLe pool).symm
      rw [h0] at this
      exact hg.1 this.eq_nil
    obtain ⟨k₀, t₀, hk₀⟩ := List.exists_cons_of_ne_nil hsne
    have hhd : (List.insertionSort cooldownLe pool).head? = some k₀ := by
      rw [hk₀]
      rfl
    have hk₀p : k₀ ∈ pool := by
      have : k₀ ∈ List.insertionSort cooldownLe pool := by
        rw [hk₀]
        exact List.mem_cons_self k₀ t₀
      exact (List.perm_insertionSort cooldownLe pool).mem_iff.mp this
    have hkey : k₀.key ≠ "" := hg.2 k₀ hk₀p
    refine ⟨k₀.key, List.insertionSort cooldownLe pool, ?_, hkey, ?_⟩
    · rw [getBestKey_of_fallback h, hhd]
      simp [if_neg hkey]
    · have := hg₁
      rw [getBestKey_of_fallback h] at this
      exact this
  · obtain ⟨m, hm⟩ := firstMinBy_isSome KeyState.lastUsed h
    have hma : m ∈ activeKeys pool now := firstMinBy_mem KeyState.lastUsed hm
    have hmp : m ∈ pool := (List.mem_filter.mp hma).1
    refine ⟨m.key,
      updateFirst pool m
        (fun k => { k with lastUsed := now, usageCount := k.usageCount + 1 }),
      getBestKey_of_active hm, hg.2 m hmp, ?_⟩
    have := hg₁
    rw [getBestKey_of_active hm] at this
    exact this

theorem goodPool_reportFailure {pool : Pool} (hg : goodPool pool)
    (ks : String) (now : Nat) : goodPool (reportFailure pool ks now) :=
  goodPool_of_keys_perm (by rw [map_key_reportFailure]) hg

/-! ### Counting attempts in the retry loop -/

theorem executeLoop_count_le {α : Type} (op : Nat → String → Except GenError α)
    (times : Nat → Nat) :
    ∀ (fuel i : Nat) (le : Option GenError) (pool : Pool),
      (executeLoop op times fuel i le pool).2.2 ≤ fuel := by
  intro fuel
  induction fuel with
  | zero =>
    intro i le pool
    simp [executeLoop]
  | succ f ih =>
    intro i le pool
    rcases hgb : getBestKey pool (times i) with ⟨o, p₁⟩
    cases o with
    | none => simp [executeLoop, hgb]
    | some key =>
      by_cases hk : key = ""
      · simp [executeLoop, hgb, hk]
      · cases hop : op i key with
        | ok v => simp [executeLoop, hgb, if_neg hk, hop]
        | error e =>
          simp only [executeLoop, hgb, if_neg hk, hop]
          exact Nat.succ_le_succ (ih _ _ _)

/-- Unfolding one failing iteration of the loop. -/
theorem executeLoop_succ_of_error {α : Type} {op : Nat → String → Except GenError α}
    {times : Nat → Nat} {pool pool₁ : Pool} {key : String} {e : GenError} {i : Nat}
    (hgb : getBestKey pool (times i) = (some key, pool₁)) (hk : key ≠ "")
    (hop : op i key = Except.error e) :
    ∀ (fuel : Nat) (le : Option GenError),
      executeLoop op times (fuel + 1) i le pool =
        ((executeLoop op times fuel (i + 1) (some e)
            (if isRateLimit e || isServerError e then
              reportFailure pool₁ key (times i) else pool₁)).1,
          (executeLoop op times fuel (i + 1) (some e)
            (if isRateLimit e || isServerError e then
              reportFailure pool₁ key (times i) else pool₁)).2.1,
          (executeLoop op times fuel (i + 1) (some e)
            (if isRateLimit e || isServerError e then
              reportFailure pool₁ key (times i) else pool₁)).2.2 + 1) := by
  intro fuel le
  simp only [executeLoop, hgb, if_neg hk, hop]

/-- When every attempt fails, the loop uses its entire fuel and ends with
the error of the final attempt. -/
theorem executeLoop_all_fail {α : Type} {op : Nat → String → Except GenError α}
    {times : Nat → Nat} {errs : Nat → GenError}
    (hop : ∀ i k, op i k = Except.error (errs i)) :
    ∀ (fuel i : Nat) (le : Option GenError) (pool : Pool),
      goodPool pool →
      (executeLoop op times (fuel + 1) i le pool).1 =
          ExecOutcome.failure (errs (i + fuel)) ∧
        (executeLoop op times (fuel + 1) i le pool).2.2 = fuel + 1 := by
  intro fuel
  induction fuel with
  | zero =>
    intro i le pool hg
    obtain ⟨key, pool₁, hgb, hk, hg₁⟩ := getBestKey_some (times i) hg
    simp [executeLoop, hgb, if_neg hk, hop i key]
  | succ f ih =>
    intro i le pool hg
    obtain ⟨key, pool₁, hgb, hk, hg₁⟩ := getBestKey_some (times i) hg
    have hg₂ : goodPool (if isRateLimit (errs i) || isServerError (errs i) then
        reportFailure pool₁ key (times i) else pool₁) := by
      by_cases hr : isRateLimit (errs i) || isServerError (errs i)
      · rw [if_pos hr]
        exact goodPool_reportFailure hg₁ key (times i)
      · rw [if_neg hr]
        exact hg₁
    have hrec := ih (i + 1) (some (errs i)) _ hg₂
    have hidx : i + 1 + f = i + (f + 1) := by omega
    rw [hidx] at hrec
    rw [executeLoop_succ_of_error hgb hk (hop i key) (f + 1) le]
    dsimp only
    exact ⟨hrec.1, by rw [hrec.2]⟩

/-- `getBestKey` never changes the multiset of (key, cooldown) pairs. -/
theorem getBestKey_pair_perm (pool : Pool) (now : Nat) :
    (((getBestKey pool now).2).map (fun k => (k.key, k.cooldownUntil))).Perm
      (pool.map (fun k => (k.key, k.cooldownUntil))) := by
  by_cases h : activeKeys pool now = []
  · rw [getBestKey_of_fallback h]
    exact (List.perm_insertionSort cooldownLe pool).map _
  · obtain ⟨m, hm⟩ := firstMinBy_isSome KeyState.lastUsed h
    rw [getBestKey_of_active hm]
    have : (updateFirst pool m
        (fun k => { k with lastUsed := now, usageCount := k.usageCount + 1 })).map
          (fun k => (k.key, k.cooldownUntil)) =
        pool.map (fun k => (k.key, k.cooldownUntil)) :=
      map_updateFirst (fun k => (k.key, k.cooldownUntil))
        (fun k => { k with lastUsed := now, usageCount := k.usageCount + 1 })
        (fun _ => rfl) pool m
    rw [this]

/-! ### Claim theorems -/

/-- C1: with a well-formed pool of `N ≥ 1` credentials, `execute` invokes
the operation at most `N` times; and if every invocation fails, exactly `N`
invocations occur and the error observed on the final (`N`-th) attempt is
the one propagated to the caller. -/
theorem C1_bounded_retries {α : Type} (op : Nat → String → Except GenError α)
    (times : Nat → Nat) (errs : Nat → GenError) (pool : Pool)
    (hg : goodPool pool) :
    (execute op times pool).2.2 ≤ pool.length ∧
      ((∀ i k, op i k = Except.error (errs i)) →
        (execute op times pool).1 = ExecOutcome.failure (errs (pool.length - 1)) ∧
          (execute op times pool).2.2 = pool.length) := by
  have hlen : 0 < pool.length := List.length_pos.mpr hg.1
  constructor
  · unfold execute
    rw [if_pos hlen]
    exact executeLoop_count_le op times pool.length 0 none pool
  · intro hop
    obtain ⟨n, hn⟩ : ∃ n, pool.length = n + 1 := ⟨pool.length - 1, by omega⟩
    have hall := @executeLoop_all_fail α op times errs hop n 0 none pool hg
    unfold execute
    rw [if_pos hlen, hn]
    constructor
    · rw [hall.1, show 0 + n = n + 1 - 1 from by omega]
    · rw [hall.2]

theorem C1_bounded_retries_witness :
    goodPool [⟨"aaaa", 0, 0, 0⟩, ⟨"bbbb", 0, 0, 0⟩, ⟨"cccc", 0, 0, 0⟩] ∧
      ((execute (fun i _ => Except.error ⟨"boom", some (600 + i)⟩)
          (fun _ => 10)
          [⟨"aaaa", 0, 0, 0⟩, ⟨"bbbb", 0, 0, 0⟩, ⟨"cccc", 0, 0, 0⟩] :
          ExecOutcome Nat × Pool × Nat).2.2 ≤ 3 ∧
        ((∀ i k, (fun i _ => Except.error ⟨"boom", some (600 + i)⟩ :
              Nat → String → Except GenError Nat) i k =
            Except.error ⟨"boom", some (600 + i)⟩) →
          (execute (fun i _ => Except.error ⟨"boom", some (600 + i)⟩)
              (fun _ => 10)
              [⟨"aaaa", 0, 0, 0⟩, ⟨"bbbb", 0, 0, 0⟩, ⟨"cccc", 0, 0, 0⟩] :
              ExecOutcome Nat × Pool × Nat).1 =
              ExecOutcome.failure ⟨"boom", some (600 + (3 - 1))⟩ ∧
            (execute (fun i _ => Except.error ⟨"boom", some (600 + i)⟩)
                (fun _ => 10)
                [⟨"aaaa", 0, 0, 0⟩, ⟨"bbbb", 0, 0, 0⟩, ⟨"cccc", 0, 0, 0⟩] :
                ExecOutcome Nat × Pool × Nat).2.2 = 3)) :=
  ⟨by decide,
    C1_bounded_retries (fun i _ => Except.error ⟨"boom", some (600 + i)⟩)
      (fun _ => 10) (fun i => ⟨"boom", some (600 + i)⟩)
      [⟨"aaaa", 0, 0, 0⟩, ⟨"bbbb", 0, 0, 0⟩, ⟨"cccc", 0, 0, 0⟩] (by decide)⟩

/-- C3: with a non-empty, well-formed pool in which every credential is
cooling down at `now`, `getBestKey` still returns a credential — the one
with the smallest `cooldownUntil` over the whole pool (ties by pool
order) — and never the no-credential sentinel. -/
theorem C3_fail_forward {pool : Pool} {now : Nat}
    (hne : pool ≠ []) (hkeys : ∀ k ∈ pool, k.key ≠ "")
    (hcool : ∀ k ∈ pool, now < k.cooldownUntil) :
    ∃ m, firstMinBy KeyState.cooldownUntil pool = some m ∧
      (getBestKey pool now).1 = some m.key ∧
      m ∈ pool ∧ (∀ j ∈ pool, m.cooldownUntil ≤ j.cooldownUntil) := by
  have hact : activeKeys pool now = [] := by
    unfold activeKeys
    rw [List.filter_eq_nil_iff]
    intro k hk
    simp only [decide_eq_true_eq]
    exact Nat.not_le_of_lt (hcool k hk)
  obtain ⟨m, hm⟩ := firstMinBy_isSome KeyState.cooldownUntil hne
  have hmem : m ∈ pool := firstMinBy_mem KeyState.cooldownUntil hm
  have hh : (List.insertionSort cooldownLe pool).head? = some m :=
    head_insertionSort KeyState.cooldownUntil hm
  refine ⟨m, hm, ?_, hmem, firstMinBy_le KeyState.cooldownUntil hm⟩
  rw [getBestKey_of_fallback hact]
  dsimp only
  rw [hh]
  simp [if_neg (hkeys m hmem)]

theorem C3_fail_forward_witness :
    (([⟨"bbbb", 7, 1, 200⟩, ⟨"aaaa", 9, 2, 100⟩] : Pool) ≠ [] ∧
        (∀ k ∈ ([⟨"bbbb", 7, 1, 200⟩, ⟨"aaaa", 9, 2, 100⟩] : Pool), k.key ≠ "") ∧
        (∀ k ∈ ([⟨"bbbb", 7, 1, 200⟩, ⟨"aaaa", 9, 2, 100⟩] : Pool),
          50 < k.cooldownUntil)) ∧
      ∃ m, firstMinBy KeyState.cooldownUntil
            ([⟨"bbbb", 7, 1, 200⟩, ⟨"aaaa", 9, 2, 100⟩] : Pool) = some m ∧
        (getBestKey ([⟨"bbbb", 7, 1, 200⟩, ⟨"aaaa", 9, 2, 100⟩] : Pool) 50).1 =
          some m.key ∧
        m ∈ ([⟨"bbbb", 7, 1, 200⟩, ⟨"aaaa", 9, 2, 100⟩] : Pool) ∧
        (∀ j ∈ ([⟨"bbbb", 7, 1, 200⟩, ⟨"aaaa", 9, 2, 100⟩] : Pool),
          m.cooldownUntil ≤ j.cooldownUntil) :=
  ⟨⟨by decide, by decide, by decide⟩,
    C3_fail_forward (by decide) (by decide) (by decide)⟩

/-- C5: with zero configured credentials, `execute` fails with the
no-credentials configuration error and never invokes the operation; and the
constructor turns an empty configuration string into the empty pool without
failing. -/
theorem C5_empty_pool {α : Type} :
    (∀ (op : Nat → String → Except GenError α) (times : Nat → Nat),
        execute op times ([] : Pool) = (ExecOutcome.noKeys, ([] : Pool), 0)) ∧
      initPool "" = [] := by
  exact ⟨fun _ _ => rfl, rfl⟩

/-- C8: a successful attempt makes `execute` return that result immediately
(one selection, one invocation), and the multiset of
(key, `cooldownUntil`) pairs of the pool is unchanged. -/
theorem C8_no_penalty_on_success {α : Type}
    {op : Nat → String → Except GenError α} {times : Nat → Nat}
    {pool pool₁ : Pool} {key : String} {v : α}
    (hg : getBestKey pool (times 0) = (some key, pool₁)) (hk : key ≠ "")
    (hop : op 0 key = Except.ok v) :
    execute op times pool = (ExecOutcome.success v, pool₁, 1) ∧
      (pool₁.map (fun k => (k.key, k.cooldownUntil))).Perm
        (pool.map (fun k => (k.key, k.cooldownUntil))) := by
  refine ⟨execute_success_step hg hk hop, ?_⟩
  have h2 : pool₁ = (getBestKey pool (times 0)).2 := by rw [hg]
  rw [h2]
  exact getBestKey_pair_perm pool (times 0)

theorem C8_no_penalty_on_success_witness :
    (getBestKey ([⟨"aaaa", 3, 1, 0⟩, ⟨"bbbb", 5, 2, 0⟩] : Pool) 100 =
        (some "aaaa", ([⟨"aaaa", 100, 2, 0⟩, ⟨"bbbb", 5, 2, 0⟩] : Pool)) ∧
      "aaaa" ≠ "" ∧
      (fun _ _ => Except.ok 42 : Nat → String → Except GenError Nat) 0 "aaaa" =
        Except.ok 42) ∧
      (execute (fun _ _ => Except.ok 42 : Nat → String → Except GenError Nat)
          (fun _ => 100) ([⟨"aaaa", 3, 1, 0⟩, ⟨"bbbb", 5, 2, 0⟩] : Pool) =
        (ExecOutcome.success 42, ([⟨"aaaa", 100, 2, 0⟩, ⟨"bbbb", 5, 2, 0⟩] : Pool),
          1) ∧
        (([⟨"aaaa", 100, 2, 0⟩, ⟨"bbbb", 5, 2, 0⟩] : Pool).map
            (fun k => (k.key, k.cooldownUntil))).Perm
          (([⟨"aaaa", 3, 1, 0⟩, ⟨"bbbb", 5, 2, 0⟩] : Pool).map
            (fun k => (k.key, k.cooldownUntil)))) :=
  ⟨⟨by decide, by decide, rfl⟩,
    @C8_no_penalty_on_success Nat
      (fun _ _ => Except.ok 42) (fun _ => 100)
      ([⟨"aaaa", 3, 1, 0⟩, ⟨"bbbb", 5, 2, 0⟩] : Pool)
      ([⟨"aaaa", 100, 2, 0⟩, ⟨"bbbb", 5, 2, 0⟩] : Pool)
      "aaaa" 42 (by decide) (by decide) rfl⟩

/-- C10: when every credential is cooling down, `getBestKey` sorts the
underlying pool in place: the resulting pool is exactly the stable sort of
the previous pool by ascending `cooldownUntil` — a permutation of the old
pool that is sorted by `cooldownUntil`, replacing the configuration
order. -/
theorem C10_fallback_sorts_pool {pool : Pool} {now : Nat}
    (h : activeKeys pool now = []) :
    (getBestKey pool now).2 = List.insertionSort cooldownLe pool ∧
      List.Sorted cooldownLe ((getBestKey pool now).2) ∧
      ((getBestKey pool now).2).Perm pool := by
  rw [getBestKey_of_fallback h]
  exact ⟨rfl, List.sorted_insertionSort cooldownLe pool,
    List.perm_insertionSort cooldownLe pool⟩

theorem C10_fallback_sorts_pool_witness :
    activeKeys ([⟨"bbbb", 0, 0, 200⟩, ⟨"aaaa", 0, 0, 100⟩] : Pool) 5 = [] ∧
      ((getBestKey ([⟨"bbbb", 0, 0, 200⟩, ⟨"aaaa", 0, 0, 100⟩] : Pool) 5).2 =
          List.insertionSort cooldownLe
            ([⟨"bbbb", 0, 0, 200⟩, ⟨"aaaa", 0, 0, 100⟩] : Pool) ∧
        List.Sorted cooldownLe
          ((getBestKey ([⟨"bbbb", 0, 0, 200⟩, ⟨"aaaa", 0, 0, 100⟩] : Pool) 5).2) ∧
        ((getBestKey ([⟨"bbbb", 0, 0, 200⟩, ⟨"aaaa", 0, 0, 100⟩] : Pool) 5).2).Perm
          ([⟨"bbbb", 0, 0, 200⟩, ⟨"aaaa", 0, 0, 100⟩] : Pool)) :=
  ⟨by decide, C10_fallback_sorts_pool (by decide)⟩

/-- C2: (i) whenever some credential is active, `getBestKey` returns the
active credential with the smallest `lastUsedAt`, ties broken by pool order
(the spec's `specSelect`); (ii) starting from credentials all fresh below a
threshold `θ` and healthy at every call time, `N = poolSize` sequential
selections enumerate each credential exactly once, in ascending order of
prior `lastUsed` (stable order); (iii) a successful `execute` call performs
exactly one such selection. -/
theorem C2_lru_selection :
    (∀ (pool : Pool) (now : Nat), activeKeys pool now ≠ [] →
        ∃ m, specSelect (activeKeys pool now) = some m ∧
          (getBestKey pool now).1 = some m.key) ∧
      (∀ (θ : Nat) (times : List Nat) (pool : Pool),
        (∀ t ∈ times, θ ≤ t) →
        (∀ k ∈ pool, ∀ t ∈ times, k.cooldownUntil ≤ t) →
        (∀ k ∈ pool, k.lastUsed < θ) →
        times.length = pool.length →
        (runSelections pool times).1 =
          (List.insertionSort lastUsedLe pool).map (fun k => some k.key)) ∧
      (∀ (α : Type) (op : Nat → String → Except GenError α)
          (times : Nat → Nat) (pool pool₁ : Pool) (key : String) (v : α),
        getBestKey pool (times 0) = (some key, pool₁) → key ≠ "" →
        op 0 key = Except.ok v →
        execute op times pool = (ExecOutcome.success v, pool₁, 1)) := by
  refine ⟨?_, ?_, ?_⟩
  · intro pool now hact
    obtain ⟨m, hm⟩ := firstMinBy_isSome KeyState.lastUsed hact
    refine ⟨m, ?_, ?_⟩
    · rw [← firstMinBy_eq_specSelect]
      exact hm
    · rw [getBestKey_of_active hm]
  · intro θ times pool hθ hc hfresh hlen
    have hfilter : pool.filter (fun k => decide (k.lastUsed < θ)) = pool :=
      List.filter_eq_self.mpr (fun k hk => by simpa using hfresh k hk)
    have := runSelections_roundRobin θ times pool hθ hc (by rw [hfilter]; exact hlen)
    rw [hfilter] at this
    exact this
  · intro α op times pool pool₁ key v hg hk hop
    exact execute_success_step hg hk hop

theorem C2_lru_selection_witness :
    ((∀ t ∈ ([10, 20, 30] : List Nat), 1 ≤ t) ∧
        (∀ k ∈ ([⟨"aaaa", 0, 0, 0⟩, ⟨"bbbb", 0, 0, 0⟩, ⟨"cccc", 0, 0, 0⟩] : Pool),
          ∀ t ∈ ([10, 20, 30] : List Nat), k.cooldownUntil ≤ t) ∧
        (∀ k ∈ ([⟨"aaaa", 0, 0, 0⟩, ⟨"bbbb", 0, 0, 0⟩, ⟨"cccc", 0, 0, 0⟩] : Pool),
          k.lastUsed < 1) ∧
        ([10, 20, 30] : List Nat).length =
          ([⟨"aaaa", 0, 0, 0⟩, ⟨"bbbb", 0, 0, 0⟩, ⟨"cccc", 0, 0, 0⟩] : Pool).length) ∧
      (runSelections
          ([⟨"aaaa", 0, 0, 0⟩, ⟨"bbbb", 0, 0, 0⟩, ⟨"cccc", 0, 0, 0⟩] : Pool)
          [10, 20, 30]).1 =
        (List.insertionSort lastUsedLe
            ([⟨"aaaa", 0, 0, 0⟩, ⟨"bbbb", 0, 0, 0⟩, ⟨"cccc", 0, 0, 0⟩] : Pool)).map
          (fun k => some k.key) :=
  ⟨⟨by decide, by decide, by decide, by decide⟩,
    C2_lru_selection.2.1 1 [10, 20, 30]
      ([⟨"aaaa", 0, 0, 0⟩, ⟨"bbbb", 0, 0, 0⟩, ⟨"cccc", 0, 0, 0⟩] : Pool)
      (by decide) (by decide) (by decide) (by decide)⟩

/-- C4 counterexample: with a single cooling-down credential, `getBestKey`
at time 5 returns that credential through the fallback path but leaves the
pool's records untouched: no record has `lastUsed = 5` or an incremented
`usageCount`, refuting the claim that every selection updates these fields
before returning. -/
theorem C4_counterexample :
    (getBestKey ([⟨"aaaa", 0, 0, 100⟩] : Pool) 5).1 = some "aaaa" ∧
      (getBestKey ([⟨"aaaa", 0, 0, 100⟩] : Pool) 5).2 =
        ([⟨"aaaa", 0, 0, 100⟩] : Pool) ∧
      ¬ ∃ k ∈ (getBestKey ([⟨"aaaa", 0, 0, 100⟩] : Pool) 5).2,
          k.lastUsed = 5 ∨ k.usageCount = 1 := by
  decide

/-- C4 amended: only a selection from the *active* set sets the chosen
credential's `lastUsed := now` and increments its `usageCount` before
returning; a fallback selection (all credentials cooling down) returns a
credential without modifying any record's fields (the pool is only
reordered). -/
theorem C4_selection_updates_amended :
    (∀ (pool : Pool) (now : Nat) (m : KeyState),
        firstMinBy KeyState.lastUsed (activeKeys pool now) = some m →
        (getBestKey pool now).1 = some m.key ∧
          (getBestKey pool now).2 =
            updateFirst pool m
              (fun k => { k with lastUsed := now, usageCount := k.usageCount + 1 })) ∧
      (∀ (pool : Pool) (now : Nat), activeKeys pool now = [] →
        ∀ k ∈ (getBestKey pool now).2, k ∈ pool) := by
  constructor
  · intro pool now m hm
    rw [getBestKey_of_active hm]
    exact ⟨rfl, rfl⟩
  · intro pool now h k hk
    rw [getBestKey_of_fallback h] at hk
    exact (List.perm_insertionSort cooldownLe pool).mem_iff.mp hk

theorem C4_selection_updates_amended_witness :
    firstMinBy KeyState.lastUsed
        (activeKeys ([⟨"aaaa", 3, 1, 0⟩, ⟨"bbbb", 2, 1, 0⟩] : Pool) 50) =
      some ⟨"bbbb", 2, 1, 0⟩ ∧
      ((getBestKey ([⟨"aaaa", 3, 1, 0⟩, ⟨"bbbb", 2, 1, 0⟩] : Pool) 50).1 =
          some (⟨"bbbb", 2, 1, 0⟩ : KeyState).key ∧
        (getBestKey ([⟨"aaaa", 3, 1, 0⟩, ⟨"bbbb", 2, 1, 0⟩] : Pool) 50).2 =
          updateFirst ([⟨"aaaa", 3, 1, 0⟩, ⟨"bbbb", 2, 1, 0⟩] : Pool)
            ⟨"bbbb", 2, 1, 0⟩
            (fun k => { k with lastUsed := 50, usageCount := k.usageCount + 1 })) :=
  ⟨by decide,
    C4_selection_updates_amended.1 ([⟨"aaaa", 3, 1, 0⟩, ⟨"bbbb", 2, 1, 0⟩] : Pool)
      50 ⟨"bbbb", 2, 1, 0⟩ (by decide)⟩

/-- C6 counterexample: an error with status 600 is outside the claim's
HTTP 500–599 retryable range, yet the code's classification
(`status >= 500`) treats it as retryable and `execute` penalises the
credential with a cooldown (`cooldownUntil` becomes `10 + 60000`). -/
theorem C6_counterexample :
    specRetryable ⟨"", some 600⟩ = false ∧
      (isRateLimit ⟨"", some 600⟩ || isServerError ⟨"", some 600⟩) = true ∧
      (execute
          (fun _ _ => Except.error ⟨"", some 600⟩ :
            Nat → String → Except GenError Nat)
          (fun _ => 10) ([⟨"aaaa", 0, 0, 0⟩] : Pool)).2.1 =
        ([⟨"aaaa", 10, 1, 60010⟩] : Pool) := by
  decide

/-- C6 amended: a failed attempt cools the used credential down iff the
error carries one of the code's retry signals — message containing "429",
"Quota", "500" or "503", status equal to 429, or status at least 500 (no
upper bound) — and a failure without such a signal leaves the pool exactly
as selection produced it (no `cooldownUntil` touched). -/
theorem C6_classification_amended {α : Type} :
    (∀ e : GenError, (isRateLimit e || isServerError e) = specRetryableAmended e) ∧
      (∀ (op : Nat → String → Except GenError α) (times : Nat → Nat)
          (pool pool₁ : Pool) (key : String) (e : GenError) (i fuel : Nat)
          (le : Option GenError),
        getBestKey pool (times i) = (some key, pool₁) → key ≠ "" →
        op i key = Except.error e → specRetryableAmended e = true →
        executeLoop op times (fuel + 1) i le pool =
          ((executeLoop op times fuel (i + 1) (some e)
              (reportFailure pool₁ key (times i))).1,
            (executeLoop op times fuel (i + 1) (some e)
              (reportFailure pool₁ key (times i))).2.1,
            (executeLoop op times fuel (i + 1) (some e)
              (reportFailure pool₁ key (times i))).2.2 + 1)) ∧
      (∀ (op : Nat → String → Except GenError α) (times : Nat → Nat)
          (pool pool₁ : Pool) (key : String) (e : GenError) (i fuel : Nat)
          (le : Option GenError),
        getBestKey pool (times i) = (some key, pool₁) → key ≠ "" →
        op i key = Except.error e → specRetryableAmended e = false →
        executeLoop op times (fuel + 1) i le pool =
          ((executeLoop op times fuel (i + 1) (some e) pool₁).1,
            (executeLoop op times fuel (i + 1) (some e) pool₁).2.1,
            (executeLoop op times fuel (i + 1) (some e) pool₁).2.2 + 1)) := by
  have hclass : ∀ e : GenError,
      (isRateLimit e || isServerError e) = specRetryableAmended e := by
    intro e
    simp [isRateLimit, isServerError, specRetryableAmended, Bool.or_assoc]
  refine ⟨hclass, ?_, ?_⟩
  · intro op times pool pool₁ key e i fuel le hgb hk hop hr
    have hcond : (isRateLimit e || isServerError e) = true := (hclass e).trans hr
    rw [executeLoop_succ_of_error hgb hk hop fuel le]
    simp only [hcond, if_true]
  · intro op times pool pool₁ key e i fuel le hgb hk hop hr
    have hcond : (isRateLimit e || isServerError e) = false := (hclass e).trans hr
    rw [executeLoop_succ_of_error hgb hk hop fuel le]
    simp only [hcond, Bool.false_eq_true, if_false]

theorem C6_classification_amended_witness :
    (getBestKey ([⟨"aaaa", 0, 0, 0⟩, ⟨"bbbb", 0, 0, 0⟩] : Pool) 10 =
        (some "aaaa", ([⟨"aaaa", 10, 1, 0⟩, ⟨"bbbb", 0, 0, 0⟩] : Pool)) ∧
        "aaaa" ≠ "" ∧
        (fun _ _ => Except.error ⟨"parse failure", none⟩ :
            Nat → String → Except GenError Nat) 0 "aaaa" =
          Except.error ⟨"parse failure", none⟩ ∧
        specRetryableAmended ⟨"parse failure", none⟩ = false) ∧
      executeLoop
          (fun _ _ => Except.error ⟨"parse failure", none⟩ :
            Nat → String → Except GenError Nat)
          (fun _ => 10) (0 + 1) 0 none
          ([⟨"aaaa", 0, 0, 0⟩, ⟨"bbbb", 0, 0, 0⟩] : Pool) =
        ((executeLoop
            (fun _ _ => Except.error ⟨"parse failure", none⟩ :
              Nat → String → Except GenError Nat)
            (fun _ => 10) 0 (0 + 1) (some ⟨"parse failure", none⟩)
            ([⟨"aaaa", 10, 1, 0⟩, ⟨"bbbb", 0, 0, 0⟩] : Pool)).1,
          (executeLoop
            (fun _ _ => Except.error ⟨"parse failure", none⟩ :
              Nat → String → Except GenError Nat)
            (fun _ => 10) 0 (0 + 1) (some ⟨"parse failure", none⟩)
            ([⟨"aaaa", 10, 1, 0⟩, ⟨"bbbb", 0, 0, 0⟩] : Pool)).2.1,
          (executeLoop
            (fun _ _ => Except.error ⟨"parse failure", none⟩ :
              Nat → String → Except GenError Nat)
            (fun _ => 10) 0 (0 + 1) (some ⟨"parse failure", none⟩)
            ([⟨"aaaa", 10, 1, 0⟩, ⟨"bbbb", 0, 0, 0⟩] : Pool)).2.2 + 1) :=
  ⟨⟨by decide, by decide, rfl, by decide⟩,
    (@C6_classification_amended Nat).2.2
      (fun _ _ => Except.error ⟨"parse failure", none⟩) (fun _ => 10)
      ([⟨"aaaa", 0, 0, 0⟩, ⟨"bbbb", 0, 0, 0⟩] : Pool)
      ([⟨"aaaa", 10, 1, 0⟩, ⟨"bbbb", 0, 0, 0⟩] : Pool)
      "aaaa" ⟨"parse failure", none⟩ 0 0 none
      (by decide) (by decide) rfl (by decide)⟩

theorem reportFailure_not_found :
    ∀ {pool : Pool} {ks : String} (now : Nat),
      (∀ k ∈ pool, k.key ≠ ks) → reportFailure pool ks now = pool := by
  intro pool ks
  induction pool with
  | nil => intro now _; rfl
  | cons h t ih =>
    intro now hall
    simp only [reportFailure]
    rw [if_neg (hall h (List.mem_cons_self h t)),
      ih now (fun k hk => hall k (List.mem_cons_of_mem h hk))]

theorem reportFailure_append :
    ∀ (l₁ rest : Pool) (ks : String) (now : Nat),
      (∀ j ∈ l₁, j.key ≠ ks) →
      reportFailure (l₁ ++ rest) ks now = l₁ ++ reportFailure rest ks now := by
  intro l₁
  induction l₁ with
  | nil => intro rest ks now _; rfl
  | cons h t ih =>
    intro rest ks now h₁
    simp only [List.cons_append, reportFailure, List.append_eq]
    rw [if_neg (h₁ h (List.mem_cons_self h t)),
      ih rest ks now (fun j hj => h₁ j (List.mem_cons_of_mem h hj))]

/-- C7: `reportFailure` sets the first matching credential's
`cooldownUntil` to `now + 60000` (the fixed 60-second window), is a no-op
when no credential holds the secret, and afterwards that credential is
excluded from the active set at every time strictly before its
`cooldownUntil` and eligible again as soon as the time reaches it. -/
theorem C7_report_cooldown :
    COOLDOWN_DURATION = 60 * 1000 ∧
      (∀ (pool : Pool) (ks : String) (now : Nat),
        (∀ k ∈ pool, k.key ≠ ks) → reportFailure pool ks now = pool) ∧
      (∀ (l₁ l₂ : Pool) (k : KeyState) (ks : String) (now : Nat),
        (∀ j ∈ l₁, j.key ≠ ks) → k.key = ks →
        reportFailure (l₁ ++ k :: l₂) ks now =
            l₁ ++ { k with cooldownUntil := now + COOLDOWN_DURATION } :: l₂ ∧
          (∀ t, t < now + COOLDOWN_DURATION →
            activeKeys (reportFailure (l₁ ++ k :: l₂) ks now) t =
              activeKeys l₁ t ++ activeKeys l₂ t) ∧
          (∀ t, now + COOLDOWN_DURATION ≤ t →
            activeKeys (reportFailure (l₁ ++ k :: l₂) ks now) t =
              activeKeys l₁ t ++
                { k with cooldownUntil := now + COOLDOWN_DURATION } ::
                  activeKeys l₂ t)) := by
  refine ⟨rfl, fun pool ks now h => reportFailure_not_found now h, ?_⟩
  intro l₁ l₂ k ks now h₁ hk
  have heq : reportFailure (l₁ ++ k :: l₂) ks now =
      l₁ ++ { k with cooldownUntil := now + COOLDOWN_DURATION } :: l₂ := by
    rw [reportFailure_append l₁ (k :: l₂) ks now h₁]
    simp only [reportFailure, if_pos hk]
  refine ⟨heq, ?_, ?_⟩
  · intro t ht
    rw [heq]
    unfold activeKeys
    rw [List.filter_append,
      List.filter_cons_of_neg (by
        simp only [decide_eq_true_eq]
        omega)]
  · intro t ht
    rw [heq]
    unfold activeKeys
    rw [List.filter_append,
      List.filter_cons_of_pos (by
        simp only [decide_eq_true_eq]
        omega)]

theorem C7_report_cooldown_witness :
    ((∀ j ∈ ([⟨"bbbb", 0, 0, 0⟩] : Pool), j.key ≠ "aaaa") ∧
        (⟨"aaaa", 0, 0, 0⟩ : KeyState).key = "aaaa") ∧
      (reportFailure (([⟨"bbbb", 0, 0, 0⟩] : Pool) ++ ⟨"aaaa", 0, 0, 0⟩ :: [])
            "aaaa" 100 =
          ([⟨"bbbb", 0, 0, 0⟩] : Pool) ++
            { (⟨"aaaa", 0, 0, 0⟩ : KeyState) with
              cooldownUntil := 100 + COOLDOWN_DURATION } :: [] ∧
        (∀ t, t < 100 + COOLDOWN_DURATION →
          activeKeys (reportFailure
              (([⟨"bbbb", 0, 0, 0⟩] : Pool) ++ ⟨"aaaa", 0, 0, 0⟩ :: [])
              "aaaa" 100) t =
            activeKeys ([⟨"bbbb", 0, 0, 0⟩] : Pool) t ++ activeKeys [] t) ∧
        (∀ t, 100 + COOLDOWN_DURATION ≤ t →
          activeKeys (reportFailure
              (([⟨"bbbb", 0, 0, 0⟩] : Pool) ++ ⟨"aaaa", 0, 0, 0⟩ :: [])
              "aaaa" 100) t =
            activeKeys ([⟨"bbbb", 0, 0, 0⟩] : Pool) t ++
              { (⟨"aaaa", 0, 0, 0⟩ : KeyState) with
                cooldownUntil := 100 + COOLDOWN_DURATION } :: activeKeys [] t)) :=
  ⟨⟨by decide, by decide⟩,
    C7_report_cooldown.2.2 ([⟨"bbbb", 0, 0, 0⟩] : Pool) ([] : Pool)
      ⟨"aaaa", 0, 0, 0⟩ "aaaa" 100 (by decide) (by decide)⟩

/-! ### Tracking one credential's cooldown along a trace -/

theorem cooldownOfKey_updateFirst (g : KeyState → KeyState)
    (hgk : ∀ k, (g k).key = k.key)
    (hgc : ∀ k, (g k).cooldownUntil = k.cooldownUntil) :
    ∀ (l : Pool) (target : KeyState) (key : String),
      cooldownOfKey (updateFirst l target g) key = cooldownOfKey l key := by
  intro l
  induction l with
  | nil => intro target key; rfl
  | cons h t ih =>
    intro target key
    simp only [updateFirst]
    by_cases hh : h = target
    · rw [if_pos hh]
      unfold cooldownOfKey
      by_cases hk : h.key = key
      · rw [List.find?_cons_of_pos _ (by simp [hgk, hk]),
          List.find?_cons_of_pos _ (by simp [hk])]
        simp [hgc]
      · rw [List.find?_cons_of_neg _ (by simp [hgk, hk]),
          List.find?_cons_of_neg _ (by simp [hk])]
    · rw [if_neg hh]
      unfold cooldownOfKey
      by_cases hk : h.key = key
      · rw [List.find?_cons_of_pos _ (by simp [hk]),
          List.find?_cons_of_pos _ (by simp [hk])]
      · rw [List.find?_cons_of_neg _ (by simp [hk]),
          List.find?_cons_of_neg _ (by simp [hk])]
        exact ih target key

theorem cooldownOfKey_perm {pool pool' : Pool} (h : pool.Perm pool')
    (hnd : (pool.map KeyState.key).Nodup) (key : String) :
    cooldownOfKey pool key = cooldownOfKey pool' key := by
  unfold cooldownOfKey
  cases hf : pool.find? (fun k => decide (k.key = key)) with
  | none =>
    have hall := List.find?_eq_none.mp hf
    have hf' : pool'.find? (fun k => decide (k.key = key)) = none := by
      rw [List.find?_eq_none]
      intro x hx
      exact hall x (h.mem_iff.mpr hx)
    rw [hf']
  | some r =>
    have hrmem : r ∈ pool := List.mem_of_find?_eq_some hf
    have hrkey : r.key = key := by simpa using List.find?_some hf
    cases hf' : pool'.find? (fun k => decide (k.key = key)) with
    | none =>
      have hall := List.find?_eq_none.mp hf'
      have := hall r (h.mem_iff.mp hrmem)
      simp [hrkey] at this
    | some r' =>
      have hr'mem : r' ∈ pool := h.mem_iff.mpr (List.mem_of_find?_eq_some hf')
      have hr'key : r'.key = key := by simpa using List.find?_some hf'
      have : r = r' :=
        List.inj_on_of_nodup_map hnd hrmem hr'mem (by rw [hrkey, hr'key])
      rw [this]

theorem cooldownOfKey_reportFailure_other :
    ∀ (pool : Pool) (ks key : String) (now : Nat), ks ≠ key →
      cooldownOfKey (reportFailure pool ks now) key = cooldownOfKey pool key := by
  intro pool
  induction pool with
  | nil => intro ks key now _; rfl
  | cons h t ih =>
    intro ks key now hne
    simp only [reportFailure]
    by_cases hh : h.key = ks
    · rw [if_pos hh]
      unfold cooldownOfKey
      have hneg : ¬ h.key = key := by rw [hh]; exact hne
      rw [List.find?_cons_of_neg _ (by simp [hneg]),
        List.find?_cons_of_neg _ (by simp [hneg])]
    · rw [if_neg hh]
      unfold cooldownOfKey
      by_cases hk : h.key = key
      · rw [List.find?_cons_of_pos _ (by simp [hk]),
          List.find?_cons_of_pos _ (by simp [hk])]
      · rw [List.find?_cons_of_neg _ (by simp [hk]),
          List.find?_cons_of_neg _ (by simp [hk])]
        exact ih ks key now hne

theorem cooldownOfKey_reportFailure_self :
    ∀ (pool : Pool) (ks : String) (now : Nat),
      (∃ r ∈ pool, r.key = ks) →
      cooldownOfKey (reportFailure pool ks now) ks =
        some (now + COOLDOWN_DURATION) := by
  intro pool
  induction pool with
  | nil =>
    intro ks now h
    simp at h
  | cons h t ih =>
    intro ks now hex
    simp only [reportFailure]
    by_cases hh : h.key = ks
    · rw [if_pos hh]
      unfold cooldownOfKey
      rw [List.find?_cons_of_pos _ (by simp [hh])]
      rfl
    · rw [if_neg hh]
      unfold cooldownOfKey
      rw [List.find?_cons_of_neg _ (by simp [hh])]
      have hext : ∃ r ∈ t, r.key = ks := by
        obtain ⟨r, hr, hrk⟩ := hex
        rcases List.mem_cons.mp hr with hr | hr
        · rw [hr] at hrk
          exact absurd hrk hh
        · exact ⟨r, hr, hrk⟩
      have := ih ks now hext
      unfold cooldownOfKey at this
      exact this

theorem cooldownOfKey_isSome_mem {pool : Pool} {key : String} {c : Nat}
    (h : cooldownOfKey pool key = some c) :
    ∃ r ∈ pool, r.key = key ∧ r.cooldownUntil = c := by
  unfold cooldownOfKey at h
  cases hf : pool.find? (fun k => decide (k.key = key)) with
  | none =>
    rw [hf] at h
    simp at h
  | some r =>
    rw [hf] at h
    simp only [Option.map_some', Option.some.injEq] at h
    exact ⟨r, List.mem_of_find?_eq_some hf, by simpa using List.find?_some hf, h⟩

theorem mem_reportFailure_cooldown :
    ∀ {pool : Pool} {ks : String} {now : Nat} {k' : KeyState},
      k' ∈ reportFailure pool ks now →
      k' ∈ pool ∨ k'.cooldownUntil = now + COOLDOWN_DURATION := by
  intro pool
  induction pool with
  | nil =>
    intro ks now k' h
    simp [reportFailure] at h
  | cons h t ih =>
    intro ks now k' hk'
    simp only [reportFailure] at hk'
    by_cases hh : h.key = ks
    · rw [if_pos hh] at hk'
      rcases List.mem_cons.mp hk' with hk' | hk'
      · right
        rw [hk']
      · left
        exact List.mem_cons_of_mem h hk'
    · rw [if_neg hh] at hk'
      rcases List.mem_cons.mp hk' with hk' | hk'
      · left
        rw [hk']
        exact List.mem_cons_self h t
      · rcases ih hk' with hm | hc
        · left
          exact List.mem_cons_of_mem h hm
        · right
          exact hc

theorem mem_getBestKey_cooldown {pool : Pool} {now : Nat} {k' : KeyState}
    (h : k' ∈ (getBestKey pool now).2) :
    ∃ k ∈ pool, k'.cooldownUntil = k.cooldownUntil := by
  by_cases hact : activeKeys pool now = []
  · rw [getBestKey_of_fallback hact] at h
    exact ⟨k', (List.perm_insertionSort cooldownLe pool).mem_iff.mp h, rfl⟩
  · obtain ⟨m, hm⟩ := firstMinBy_isSome KeyState.lastUsed hact
    rw [getBestKey_of_active hm] at h
    rcases mem_updateFirst h with hmem | heq
    · exact ⟨k', hmem, rfl⟩
    · have hmp : m ∈ pool :=
        (List.mem_filter.mp (firstMinBy_mem KeyState.lastUsed hm)).1
      exact ⟨m, hmp, by rw [heq]⟩

theorem cooldownOfKey_getBestKey {pool : Pool} (now : Nat) (key : String)
    (hnd : (pool.map KeyState.key).Nodup) :
    cooldownOfKey ((getBestKey pool now).2) key = cooldownOfKey pool key := by
  by_cases hact : activeKeys pool now = []
  · rw [getBestKey_of_fallback hact]
    exact (cooldownOfKey_perm (List.perm_insertionSort cooldownLe pool).symm
      hnd key).symm
  · obtain ⟨m, hm⟩ := firstMinBy_isSome KeyState.lastUsed hact
    rw [getBestKey_of_active hm]
    exact cooldownOfKey_updateFirst
      (fun k => { k with lastUsed := now, usageCount := k.usageCount + 1 })
      (fun _ => rfl) (fun _ => rfl) pool m key

/-- End-to-end monotonicity of one credential's cooldown along a trace of
gate operations with a non-decreasing clock, starting from a pool whose
cooldowns lie within one cooldown window of every clock value (as the gate
itself maintains). -/
theorem runOps_cooldown_mono :
    ∀ (ops : List GateOp) (pool : Pool) (key : String) (c : Nat),
      (pool.map KeyState.key).Nodup →
      List.Pairwise (fun a b => opTime a ≤ opTime b) ops →
      (∀ k ∈ pool, ∀ o ∈ ops, k.cooldownUntil ≤ opTime o + COOLDOWN_DURATION) →
      cooldownOfKey pool key = some c →
      ∃ c', cooldownOfKey (runOps pool ops) key = some c' ∧ c ≤ c' := by
  intro ops
  induction ops with
  | nil =>
    intro pool key c _ _ _ hc
    exact ⟨c, hc, Nat.le_refl c⟩
  | cons o rest ih =>
    intro pool key c hnd hpw hbound hc
    have hpwc := List.pairwise_cons.mp hpw
    cases o with
    | select t =>
      have hnd' : (((getBestKey pool t).2).map KeyState.key).Nodup :=
        ((getBestKey_keys_perm pool t).nodup_iff).mpr hnd
      have hbound' : ∀ k' ∈ (getBestKey pool t).2, ∀ o' ∈ rest,
          k'.cooldownUntil ≤ opTime o' + COOLDOWN_DURATION := by
        intro k' hk' o' ho'
        obtain ⟨k, hk, hkc⟩ := mem_getBestKey_cooldown hk'
        rw [hkc]
        exact hbound k hk o' (List.mem_cons_of_mem _ ho')
      have hc' : cooldownOfKey ((getBestKey pool t).2) key = some c := by
        rw [cooldownOfKey_getBestKey t key hnd]
        exact hc
      exact ih ((getBestKey pool t).2) key c hnd' hpwc.2 hbound' hc'
    | report ks t =>
      have hnd' : ((reportFailure pool ks t).map KeyState.key).Nodup := by
        rw [map_key_reportFailure]
        exact hnd
      have hbound' : ∀ k' ∈ reportFailure pool ks t, ∀ o' ∈ rest,
          k'.cooldownUntil ≤ opTime o' + COOLDOWN_DURATION := by
        intro k' hk' o' ho'
        rcases mem_reportFailure_cooldown hk' with hm | hcd
        · exact hbound k' hm o' (List.mem_cons_of_mem _ ho')
        · rw [hcd]
          have ht : t ≤ opTime o' := hpwc.1 o' ho'
          omega
      by_cases hkk : ks = key
      · subst hkk
        obtain ⟨r, hrmem, hrkey, hrc⟩ := cooldownOfKey_isSome_mem hc
        have hnew : cooldownOfKey (reportFailure pool ks t) ks =
            some (t + COOLDOWN_DURATION) :=
          cooldownOfKey_reportFailure_self pool ks t ⟨r, hrmem, hrkey⟩
        have hcle : c ≤ t + COOLDOWN_DURATION := by
          have hb := hbound r hrmem (GateOp.report ks t) (List.mem_cons_self _ _)
          rw [hrc] at hb
          simpa [opTime] using hb
        obtain ⟨c', hcc, hle⟩ := ih (reportFailure pool ks t) ks
          (t + COOLDOWN_DURATION) hnd' hpwc.2 hbound' hnew
        exact ⟨c', hcc, Nat.le_trans hcle hle⟩
      · have hc' : cooldownOfKey (reportFailure pool ks t) key = some c := by
          rw [cooldownOfKey_reportFailure_other pool ks key t hkk]
          exact hc
        exact ih (reportFailure pool ks t) key c hnd' hpwc.2 hbound' hc'

/-- C9: a credential's `cooldownUntil` changes only when `reportFailure` is
invoked for that credential — selection (`getBestKey`) never changes any
credential's cooldown and a report for a different key leaves it unchanged
— and along every trace of gate operations with a non-decreasing clock
(starting from cooldowns within one window of the clock, as the gate
maintains), the cooldown never decreases. -/
theorem C9_cooldown_invariant :
    (∀ (pool : Pool) (key : String) (now : Nat),
        (pool.map KeyState.key).Nodup →
        cooldownOfKey ((getBestKey pool now).2) key = cooldownOfKey pool key) ∧
      (∀ (pool : Pool) (ks key : String) (now : Nat), ks ≠ key →
        cooldownOfKey (reportFailure pool ks now) key = cooldownOfKey pool key) ∧
      (∀ (ops : List GateOp) (pool : Pool) (key : String) (c : Nat),
        (pool.map KeyState.key).Nodup →
        List.Pairwise (fun a b => opTime a ≤ opTime b) ops →
        (∀ k ∈ pool, ∀ o ∈ ops, k.cooldownUntil ≤ opTime o + COOLDOWN_DURATION) →
        cooldownOfKey pool key = some c →
        ∃ c', cooldownOfKey (runOps pool ops) key = some c' ∧ c ≤ c') :=
  ⟨fun _ key now hnd => cooldownOfKey_getBestKey now key hnd,
    fun pool ks key now h => cooldownOfKey_reportFailure_other pool ks key now h,
    runOps_cooldown_mono⟩

theorem C9_cooldown_invariant_witness :
    ((([⟨"aaaa", 0, 0, 0⟩, ⟨"bbbb", 0, 0, 0⟩] : Pool).map KeyState.key).Nodup ∧
        List.Pairwise (fun a b => opTime a ≤ opTime b)
          [GateOp.select 5, GateOp.report "aaaa" 10, GateOp.select 20] ∧
        (∀ k ∈ ([⟨"aaaa", 0, 0, 0⟩, ⟨"bbbb", 0, 0, 0⟩] : Pool),
          ∀ o ∈ [GateOp.select 5, GateOp.report "aaaa" 10, GateOp.select 20],
            k.cooldownUntil ≤ opTime o + COOLDOWN_DURATION) ∧
        cooldownOfKey ([⟨"aaaa", 0, 0, 0⟩, ⟨"bbbb", 0, 0, 0⟩] : Pool) "aaaa" =
          some 0) ∧
      ∃ c', cooldownOfKey
          (runOps ([⟨"aaaa", 0, 0, 0⟩, ⟨"bbbb", 0, 0, 0⟩] : Pool)
            [GateOp.select 5, GateOp.report "aaaa" 10, GateOp.select 20])
          "aaaa" = some c' ∧ 0 ≤ c' :=
  ⟨⟨by decide, by decide, by decide, by decide⟩,
    C9_cooldown_invariant.2.2
      [GateOp.select 5, GateOp.report "aaaa" 10, GateOp.select 20]
      ([⟨"aaaa", 0, 0, 0⟩, ⟨"bbbb", 0, 0, 0⟩] : Pool) "aaaa" 0
      (by decide) (by decide) (by decide) (by decide)⟩

end Quiz
